import Mathlib

/-!
# K-NCL (k-Nearest Common Leaves) — verification of the completion engine

A shallow embedding of the K-NCL phylogenetic tree completion pipeline
(tree model, leaf-to-leaf distances, adjustment rates, subtree transfer,
insertion by branch splitting, and the branch-score distance BSD), together
with theorems checking the documented properties of the algorithm.

The repository describes the algorithm in its README (`part_000`) and in
`algorithm.md`; the Python implementation (`kncl.py`, `bsd.py`) is not part
of the source tree, so the executable definitions below are modelled from
those formulas and from the specification, as indicated in each doc comment.

Trees are rooted, with a branch length (a rational number) on every node
recording the length of the branch to its parent; the root's field is unused
by distance queries.  Leaves carry a label.  Children are kept in a list,
encoded as the mutually inductive `PForest` so that all recursions are
structural.
-/

mutual

inductive PTree where
  | leaf (label : String) (br : ℚ)
  | node (br : ℚ) (children : PForest)
deriving DecidableEq

inductive PForest where
  | nil
  | cons (t : PTree) (ts : PForest)
deriving DecidableEq

end

/-- Branch length from the root of this subtree to its parent. -/
def PTree.br : PTree → ℚ
  | .leaf _ b => b
  | .node b _ => b

/-- Replace the branch length from the root of this subtree to its parent. -/
def PTree.setBr : PTree → ℚ → PTree
  | .leaf l _, b => .leaf l b
  | .node _ cs, b => .node b cs

mutual

/-- Leaf labels of a tree, left to right. -/
def PTree.leaves : PTree → List String
  | .leaf l _ => [l]
  | .node _ cs => PForest.leaves cs

/-- Leaf labels of a forest, left to right. -/
def PForest.leaves : PForest → List String
  | .nil => []
  | .cons t ts => t.leaves ++ PForest.leaves ts

end

mutual

/-- Distance from the root of `t` down to the leaf labelled `u`
(the sum of the branch lengths of every node strictly below the root on
that path, each node contributing the branch to its parent).
`none` when no leaf of `t` is labelled `u`. -/
def PTree.depthOf : PTree → String → Option ℚ
  | .leaf l _, u => if u = l then some 0 else none
  | .node _ cs, u => PForest.depthOf cs u

/-- Distance from the (implicit) owner node of the forest down to leaf `u`:
the branch of the child subtree containing `u` plus the depth inside it.
First occurrence wins. -/
def PForest.depthOf : PForest → String → Option ℚ
  | .nil, _ => none
  | .cons t ts, u =>
    match PTree.depthOf t u with
    | some d => some (t.br + d)
    | none => PForest.depthOf ts u

end

/-- Whether a leaf labelled `u` occurs in `t`. -/
def PTree.containsLeaf (t : PTree) (u : String) : Bool :=
  (t.depthOf u).isSome

mutual

/-- Terminal branch length of the leaf labelled `u`: the branch from that
leaf to its parent (`br^{(T)}(u)` in the README). -/
def PTree.termBr : PTree → String → Option ℚ
  | .leaf l b, u => if u = l then some b else none
  | .node _ cs, u => PForest.termBr cs u

/-- Terminal branch length of leaf `u` inside a forest; first occurrence wins. -/
def PForest.termBr : PForest → String → Option ℚ
  | .nil, _ => none
  | .cons t ts, u =>
    match PTree.termBr t u with
    | some b => some b
    | none => PForest.termBr ts u

end

mutual

/-- `d^{(T)}(u,v)`: the sum of branch lengths on the unique path between the
leaves labelled `u` and `v` (README, Step 2, definition 2).  Computed by
locating the lowest common ancestor: if one child subtree holds both leaves
the query descends; otherwise both depths are summed at the meeting node. -/
def PTree.dist : PTree → String → String → Option ℚ
  | .leaf l _, u, v => if u = l ∧ v = l then some 0 else none
  | .node _ cs, u, v => PForest.dist cs u v

/-- Path length between leaves `u` and `v` whose lowest common ancestor is the
owner node of the forest or below it. -/
def PForest.dist : PForest → String → String → Option ℚ
  | .nil, _, _ => none
  | .cons t ts, u, v =>
    if t.containsLeaf u then
      if t.containsLeaf v then PTree.dist t u v
      else
        match PTree.depthOf t u, PForest.depthOf ts v with
        | some du, some dv => some ((t.br + du) + dv)
        | _, _ => none
    else if t.containsLeaf v then
      match PForest.depthOf ts u, PTree.depthOf t v with
      | some du, some dv => some (du + (t.br + dv))
      | _, _ => none
    else PForest.dist ts u v

end

mutual

/-- Distance from the root of `t` down to the parent node of the leaf
labelled `v`; `none` when `v` is not strictly below the root (in particular
when `t` itself is that leaf, since then the parent lies outside `t`). -/
def PTree.depthPar : PTree → String → Option ℚ
  | .leaf _ _, _ => none
  | .node _ cs, v => PForest.depthPar cs v

/-- Distance from the owner node of the forest down to the parent node of
leaf `v`: zero when `v` is a direct child, otherwise the branch of the child
subtree containing `v` plus the recursive parent depth. -/
def PForest.depthPar : PForest → String → Option ℚ
  | .nil, _ => none
  | .cons (.leaf l _) ts, v => if v = l then some 0 else PForest.depthPar ts v
  | .cons (.node b cs) ts, v =>
    match PForest.depthPar cs v with
    | some d => some (b + d)
    | none => PForest.depthPar ts v

end

mutual

/-- `dc^{(T)}(u,v)` by its primary definition in the README (Step 4.1): the
sum of the branch lengths between leaf `u` and the parent node of leaf `v`,
computed along the unique path. -/
def PTree.distPar : PTree → String → String → Option ℚ
  | .leaf _ _, _, _ => none
  | .node _ cs, u, v => PForest.distPar cs u v

/-- Path length between leaf `u` and the parent node of leaf `v`, for paths
meeting at the owner node of the forest or below it. -/
def PForest.distPar : PForest → String → String → Option ℚ
  | .nil, _, _ => none
  | .cons t ts, u, v =>
    if t.containsLeaf u then
      if t.containsLeaf v then PTree.distPar t u v
      else
        match PTree.depthOf t u, PForest.depthPar ts v with
        | some du, some dv => some ((t.br + du) + dv)
        | _, _ => none
    else if t.containsLeaf v then
      match t with
      | .leaf _ _ => PForest.depthOf ts u
      | .node b cs =>
        match PForest.depthOf ts u, PForest.depthPar cs v with
        | some du, some dv => some (du + (b + dv))
        | _, _ => none
    else PForest.distPar ts u v

end

/-- Modelled from the spec: insertion Step 5 of `PositionFinder` (the Python
implementation is not in the source tree).  Splitting the branch above `t`
at offset `x` from the parent side: a new internal node is created carrying
branch `x`, the displaced subtree keeps the remainder `t.br - x`, and the
transferred element `s` (already rescaled) is attached at the new node. -/
def splitEdge (x : ℚ) (s : PTree) (t : PTree) : PTree :=
  .node x (.cons (t.setBr (t.br - x)) (.cons s .nil))

mutual

/-- Modelled from the spec: descend along a child-index path to the branch
being split and perform the split there; an unreachable path leaves the tree
unchanged. -/
def PTree.insertSub : PTree → ℕ → List ℕ → ℚ → PTree → PTree
  | .leaf l b, _, _, _, _ => .leaf l b
  | .node b cs, i, rest, x, s => .node b (PForest.insertSub cs i rest x s)

/-- Forest version of `PTree.insertSub`: index `i` selects the child whose
branch (when `rest = []`) or whose subtree (otherwise) receives the element. -/
def PForest.insertSub : PForest → ℕ → List ℕ → ℚ → PTree → PForest
  | .nil, _, _, _, _ => .nil
  | .cons t ts, 0, [], x, s => .cons (splitEdge x s t) ts
  | .cons t ts, 0, j :: rest, x, s => .cons (PTree.insertSub t j rest x s) ts
  | .cons t ts, i + 1, rest, x, s => .cons t (PForest.insertSub ts i rest x s)

end

/-- Insert element `s` by splitting the branch identified by `path` at
offset `x`; the empty path identifies no branch and is a no-op. -/
def PTree.insertAt (t : PTree) : List ℕ → ℚ → PTree → PTree
  | [], _, _ => t
  | i :: rest, x, s => t.insertSub i rest x s

mutual

/-- Whether the child-index path names an existing branch of the tree. -/
def PTree.validSub : PTree → ℕ → List ℕ → Bool
  | .leaf _ _, _, _ => false
  | .node _ cs, i, rest => PForest.validSub cs i rest

/-- Forest version of `PTree.validSub`. -/
def PForest.validSub : PForest → ℕ → List ℕ → Bool
  | .nil, _, _ => false
  | .cons _ _, 0, [] => true
  | .cons t _, 0, j :: rest => PTree.validSub t j rest
  | .cons _ ts, i + 1, rest => PForest.validSub ts i rest

end

/-- Whether `path` names an existing branch of `t` (insertion positions are
always strictly below the root). -/
def PTree.validPos (t : PTree) : List ℕ → Bool
  | [] => false
  | i :: rest => t.validSub i rest

/-- One insertion performed by the completion pass: the branch to split
(`path`), the offset along it, and the transferred element (already
rescaled). -/
structure InsSpec where
  path : List ℕ
  offset : ℚ
  sub : PTree
deriving DecidableEq

/-- Modelled from the spec: the completion pass of the orchestrator inserts
the elements of SD of the other tree one after the other into (a copy of)
the target tree. -/
def completeInto (t : PTree) : List InsSpec → PTree
  | [] => t
  | e :: es => completeInto (t.insertAt e.path e.offset e.sub) es

/-- Every insertion of the chain names an existing branch of the tree it is
applied to. -/
def validChain (t : PTree) : List InsSpec → Bool
  | [] => true
  | e :: es => t.validPos e.path && validChain (t.insertAt e.path e.offset e.sub) es

mutual

/-- Modelled from the spec: `SubtreeTransfer` rescaling (README Step 3:
"All branch lengths within maximal distinct-leaf subtrees should be adjusted
according to the appropriate rate when they are transferred").  Every branch
length of the transferred element is multiplied by the adjustment rate. -/
def PTree.rescale : ℚ → PTree → PTree
  | r, .leaf l b => .leaf l (r * b)
  | r, .node b cs => .node (r * b) (PForest.rescale r cs)

/-- Forest version of `PTree.rescale`. -/
def PForest.rescale : ℚ → PForest → PForest
  | _, .nil => .nil
  | r, .cons t ts => .cons (PTree.rescale r t) (PForest.rescale r ts)

end

mutual

/-- All branch lengths of a tree (root first, then children left to right). -/
def PTree.branches : PTree → List ℚ
  | .leaf _ b => [b]
  | .node b cs => b :: PForest.branches cs

/-- All branch lengths of a forest. -/
def PForest.branches : PForest → List ℚ
  | .nil => []
  | .cons t ts => PTree.branches t ++ PForest.branches ts

end

/-- Leaf-to-leaf distance as a rational number (`0` for an absent pair, the
way a numeric implementation would default a missing query). -/
def dq (t : PTree) (u v : String) : ℚ := (t.dist u v).getD 0

/-- Terminal branch length as a rational number. -/
def termBrQ (t : PTree) (l : String) : ℚ := (t.termBr l).getD 0

/-- `CL(T1,T2)`: labels of the leaves present in both trees, enumerated in
`t1`'s leaf order. -/
def commonLeaves (t1 t2 : PTree) : List String :=
  t1.leaves.filter (fun l => decide (l ∈ t2.leaves))

/-- `DL(T)`: leaves of `t` absent from the other tree. -/
def distinctLeaves (t other : PTree) : List String :=
  t.leaves.filter (fun l => decide (l ∉ other.leaves))

/-- `Σ_{i<j} f l_i l_j` over a list of leaves: the double sum "without
repetitions" used by the README for distances and for BSD. -/
def listPairSum (f : String → String → ℚ) : List String → ℚ
  | [] => 0
  | l :: ls => (ls.map (f l)).sum + listPairSum f ls

/-- Modelled from the spec: the global branch adjustment rate
`r(T_1,T_2) = Σ_{i<j} d^{(T_1)}(l_i,l_j) / Σ_{i<j} d^{(T_2)}(l_i,l_j)`
over the common leaves (README Step 2; `RateCalculator`). -/
def adjRate (t1 t2 : PTree) : ℚ :=
  listPairSum (dq t1) (commonLeaves t1 t2) / listPairSum (dq t2) (commonLeaves t1 t2)

/-- Modelled from the spec: the leaf-based adjustment rate
`r^{(l_c)}(T_a,T_b) = Σ_{l_i ≠ l_c} d^{(T_a)}(l_c,l_i) / Σ_{l_i ≠ l_c} d^{(T_b)}(l_c,l_i)`
with `l_i` ranging over the common leaves `cl` (README Step 2.3). -/
def leafRate (ta tb : PTree) (cl : List String) (lc : String) : ℚ :=
  (((cl.filter (fun l => decide (l ≠ lc))).map (dq ta lc)).sum) /
  (((cl.filter (fun l => decide (l ≠ lc))).map (dq tb lc)).sum)

/-- `dc^{(T)}(l_1,l_2)`, cutback distance by its path characterisation: the
sum of the branch lengths between `l_1` and the parent node of `l_2`
(README Step 4.1, primary definition). -/
def cutback (t : PTree) (l1 l2 : String) : ℚ := (t.distPar l1 l2).getD 0

/-- Modelled from the spec: the temporary-position distance of
`algorithm.md`, `d_p^{(T_2)}(l_k,a) = (d^{(T_1)}(l_k,a) - br^{(T_1)}(a)) · r^{(l_k)}(T_2,T_1)`
(`PositionFinder`, Step 4.2 of the README). -/
def dpDist (t1 t2 : PTree) (lk a : String) : ℚ :=
  (dq t1 lk a - termBrQ t1 a) * leafRate t2 t1 (commonLeaves t1 t2) lk

/-- Squared distance difference of one leaf pair between the two trees. -/
def sqDiffDist (t1 t2 : PTree) (u v : String) : ℚ := (dq t1 u v - dq t2 u v) ^ 2

/-- Modelled from the spec: the sum under the square root of `BSD(+)`
(README Step 5), iterating over the leaf list of the first tree the way
`BSDCalculator` enumerates `l_1, …, l_{N_∪}`.  The reported distance is the
square root of this value. -/
def bsdPlusSq (t1 t2 : PTree) : ℚ := listPairSum (sqDiffDist t1 t2) t1.leaves

/-- Modelled from the spec: the sum under the square root of `BSD(-)`, the
same formula restricted to the common leaves of the two (unpruned) trees. -/
def bsdMinusSq (t1 t2 : PTree) : ℚ := listPairSum (sqDiffDist t1 t2) (commonLeaves t1 t2)

/-- Outcome of the `bsd.py` script as documented in its README: a `BSD`
value on identical leaf sets, a `BSD(-)` value on overlapping but different
leaf sets, or the message that the distance cannot be computed.  Each value
constructor carries the sum of squares; the printed number is its square
root. -/
inductive BsdOutcome where
  | bsd (sq : ℚ)
  | bsdMinus (sq : ℚ)
  | noCommon
deriving DecidableEq

/-- Modelled from the spec: the three scenarios of the BSD script
(`part_006`): identical leaf sets → BSD; overlapping but different →
prune to common leaves and BSD(-); no common leaves → informative message. -/
def bsdScenario (t1 t2 : PTree) : BsdOutcome :=
  if t1.leaves.toFinset = t2.leaves.toFinset then .bsd (bsdPlusSq t1 t2)
  else if commonLeaves t1 t2 ≠ [] then .bsdMinus (bsdMinusSq t1 t2)
  else .noCommon

/-- State threaded through one run of the orchestrator: the two input trees
and the two working copies being completed. -/
structure RunState where
  input1 : PTree
  input2 : PTree
  work1 : PTree
  work2 : PTree
deriving DecidableEq

/-- Modelled from the spec: the orchestrator first makes independent copies
of the two input trees (README Step 3: "the initial branch lengths in the
trees should be preserved without any changes, and we change the length of
the branches on their copies"). -/
def initCopies (s : RunState) : RunState :=
  { s with work1 := s.input1, work2 := s.input2 }

/-- Modelled from the spec: one completion run.  Elements of `SD(T_1)`
(paths, offsets and raw subtrees in `sd1`) are rescaled by `r(T_2,T_1)` and
inserted into the copy of `T_2`; symmetrically for `sd2`.  Only the working
copies are touched. -/
def orchestrate (sd1 sd2 : List InsSpec) (s : RunState) : RunState :=
  let s0 := initCopies s
  let r21 := adjRate s.input2 s.input1
  let r12 := adjRate s.input1 s.input2
  { s0 with
    work2 := completeInto s0.work2 (sd1.map fun e => ⟨e.path, e.offset, PTree.rescale r21 e.sub⟩)
    work1 := completeInto s0.work1 (sd2.map fun e => ⟨e.path, e.offset, PTree.rescale r12 e.sub⟩) }

/-!
## Supertree-validation notebook (cell 4 of
`data/data-pipeline/analysis/supertree_validation_for_data_pipeline.ipynb`)

One line of a method file is abstracted by whether it is blank after
stripping, whether it parses as a Newick tree (and then how many taxa the
parsed supertree has), and whether the RF-distance loop for it finishes
without raising (and then the average RF value it yields).  The input tree
sets are abstracted by whether the set at an index loaded successfully and
non-empty (`true`) or is the empty fallback (`false`).
-/

/-- One line of a supertree method file, as cell 4 of the notebook sees it. -/
structure SupLine where
  blank : Bool
  parsed : Option ℕ
  rfVal : Option ℚ
deriving DecidableEq

/-- Accumulated per-method statistics of cell 4. -/
structure MethodAcc where
  successCount : ℕ
  taxonCounts : List ℕ
  rfDistances : List ℚ
deriving DecidableEq

/-- Processing of one line of the method file: skip blank lines, skip parse
failures, skip indices whose input set is missing or empty; then count the
success and record the taxon count, and record the average RF distance only
when that loop does not raise (an exception there is caught after
`success_count` and `taxon_counts` were already updated). -/
def processLine (inputSets : List Bool) (idx : ℕ) (ln : SupLine) (acc : MethodAcc) : MethodAcc :=
  if ln.blank then acc
  else
    match ln.parsed with
    | none => acc
    | some taxa =>
      match inputSets[idx]? with
      | none => acc
      | some false => acc
      | some true =>
        match ln.rfVal with
        | some rf => ⟨acc.successCount + 1, acc.taxonCounts ++ [taxa], acc.rfDistances ++ [rf]⟩
        | none => ⟨acc.successCount + 1, acc.taxonCounts ++ [taxa], acc.rfDistances⟩

/-- Fold of `processLine` over the enumerated lines of a method file. -/
def processFrom (inputSets : List Bool) : ℕ → List SupLine → MethodAcc → MethodAcc
  | _, [], acc => acc
  | idx, ln :: lns, acc => processFrom inputSets (idx + 1) lns (processLine inputSets idx ln acc)

/-- The statistics cell 4 accumulates for one method file. -/
def analyzeMethod (inputSets : List Bool) (lns : List SupLine) : MethodAcc :=
  processFrom inputSets 0 lns ⟨0, [], []⟩

/-- The reported success rate: `100.0 * success_count / total` with `total`
the raw number of lines of the file. -/
def successRate (inputSets : List Bool) (lns : List SupLine) : ℚ :=
  100 * (analyzeMethod inputSets lns).successCount / lns.length

/-- The reported average taxa count: `statistics.mean(taxon_counts) if taxon_counts else 0`. -/
def avgTaxa (inputSets : List Bool) (lns : List SupLine) : ℚ :=
  let tc := (analyzeMethod inputSets lns).taxonCounts
  if tc = [] then 0 else (tc.map fun n => (n : ℚ)).sum / tc.length

/-- The reported average RF distance: `statistics.mean(rf_distances) if rf_distances else 0`. -/
def avgRf (inputSets : List Bool) (lns : List SupLine) : ℚ :=
  let rd := (analyzeMethod inputSets lns).rfDistances
  if rd = [] then 0 else rd.sum / rd.length

/-!
## Basic lemmas about leaves, depths and distances
-/

mutual

theorem PTree.isSome_depthOf_iff : ∀ (t : PTree) (u : String),
    (t.depthOf u).isSome = true ↔ u ∈ t.leaves
  | .leaf l b, u => by
    by_cases h : u = l <;> simp [PTree.depthOf, PTree.leaves, h]
  | .node b cs, u => by
    simpa [PTree.depthOf, PTree.leaves] using PForest.isSome_depthOf_iff_forest cs u

theorem PForest.isSome_depthOf_iff_forest : ∀ (ts : PForest) (u : String),
    (PForest.depthOf ts u).isSome = true ↔ u ∈ PForest.leaves ts
  | .nil, u => by simp [PForest.depthOf, PForest.leaves]
  | .cons t ts, u => by
    cases h : PTree.depthOf t u with
    | some d =>
      have ht : u ∈ t.leaves := (PTree.isSome_depthOf_iff t u).1 (by simp [h])
      simp [PForest.depthOf, PForest.leaves, h, ht]
    | none =>
      have ht : u ∉ t.leaves := by
        intro hmem
        have := (PTree.isSome_depthOf_iff t u).2 hmem
        simp [h] at this
      simp [PForest.depthOf, PForest.leaves, h, ht, PForest.isSome_depthOf_iff_forest ts u]

end

theorem PTree.containsLeaf_iff (t : PTree) (u : String) :
    t.containsLeaf u = true ↔ u ∈ t.leaves := by
  simpa [PTree.containsLeaf] using PTree.isSome_depthOf_iff t u

theorem PTree.depthOf_eq_none (t : PTree) (u : String) (h : u ∉ t.leaves) :
    t.depthOf u = none := by
  cases hd : t.depthOf u with
  | none => rfl
  | some d => exact absurd ((PTree.isSome_depthOf_iff t u).1 (by simp [hd])) h

theorem PForest.depthOf_eq_none_forest (ts : PForest) (u : String) (h : u ∉ PForest.leaves ts) :
    PForest.depthOf ts u = none := by
  cases hd : PForest.depthOf ts u with
  | none => rfl
  | some d => exact absurd ((PForest.isSome_depthOf_iff_forest ts u).1 (by simp [hd])) h

theorem PTree.br_setBr (t : PTree) (b : ℚ) : (t.setBr b).br = b := by
  cases t <;> rfl

theorem PTree.leaves_setBr (t : PTree) (b : ℚ) : (t.setBr b).leaves = t.leaves := by
  cases t <;> rfl

theorem PTree.depthOf_setBr (t : PTree) (b : ℚ) (u : String) :
    (t.setBr b).depthOf u = t.depthOf u := by
  cases t <;> rfl

theorem PTree.dist_setBr (t : PTree) (b : ℚ) (u v : String) :
    (t.setBr b).dist u v = t.dist u v := by
  cases t <;> rfl

theorem PTree.containsLeaf_setBr (t : PTree) (b : ℚ) (u : String) :
    (t.setBr b).containsLeaf u = t.containsLeaf u := by
  simp [PTree.containsLeaf, PTree.depthOf_setBr]

mutual

theorem PTree.dist_symm : ∀ (t : PTree) (u v : String), t.dist u v = t.dist v u
  | .leaf l b, u, v => by
    by_cases hu : u = l <;> by_cases hv : v = l <;> simp [PTree.dist, hu, hv]
  | .node b cs, u, v => by
    simpa [PTree.dist] using PForest.dist_symm_forest cs u v

theorem PForest.dist_symm_forest : ∀ (ts : PForest) (u v : String),
    PForest.dist ts u v = PForest.dist ts v u
  | .nil, _, _ => rfl
  | .cons t ts, u, v => by
    by_cases hu : t.containsLeaf u = true <;> by_cases hv : t.containsLeaf v = true
    · simp [PForest.dist, hu, hv, PTree.dist_symm t u v]
    · cases hdu : PTree.depthOf t u <;> cases hdv : PForest.depthOf ts v <;>
        simp [PForest.dist, hu, hv, hdu, hdv] <;> ring
    · cases hdv : PTree.depthOf t v <;> cases hdu : PForest.depthOf ts u <;>
        simp [PForest.dist, hu, hv, hdu, hdv] <;> ring
    · simp [PForest.dist, hu, hv, PForest.dist_symm_forest ts u v]

end

mutual

theorem PTree.isSome_termBr_iff : ∀ (t : PTree) (u : String),
    (t.termBr u).isSome = true ↔ u ∈ t.leaves
  | .leaf l b, u => by
    by_cases h : u = l <;> simp [PTree.termBr, PTree.leaves, h]
  | .node b cs, u => by
    simpa [PTree.termBr, PTree.leaves] using PForest.isSome_termBr_iff_forest cs u

theorem PForest.isSome_termBr_iff_forest : ∀ (ts : PForest) (u : String),
    (PForest.termBr ts u).isSome = true ↔ u ∈ PForest.leaves ts
  | .nil, u => by simp [PForest.termBr, PForest.leaves]
  | .cons t ts, u => by
    cases h : PTree.termBr t u with
    | some b =>
      have ht : u ∈ t.leaves := (PTree.isSome_termBr_iff t u).1 (by simp [h])
      simp [PForest.termBr, PForest.leaves, h, ht]
    | none =>
      have ht : u ∉ t.leaves := by
        intro hmem
        have := (PTree.isSome_termBr_iff t u).2 hmem
        simp [h] at this
      simp [PForest.termBr, PForest.leaves, h, ht, PForest.isSome_termBr_iff_forest ts u]

end

theorem PTree.termBr_eq_none (t : PTree) (u : String) (h : u ∉ t.leaves) :
    t.termBr u = none := by
  cases hb : t.termBr u with
  | none => rfl
  | some b => exact absurd ((PTree.isSome_termBr_iff t u).1 (by simp [hb])) h

mutual

theorem PTree.dist_isSome : ∀ (t : PTree) (u v : String),
    u ∈ t.leaves → v ∈ t.leaves → (t.dist u v).isSome = true
  | .leaf l b, u, v => by
    intro hu hv
    simp [PTree.leaves] at hu hv
    simp [PTree.dist, hu, hv]
  | .node b cs, u, v => by
    intro hu hv
    simp [PTree.leaves] at hu hv
    simpa [PTree.dist] using PForest.dist_isSome_forest cs u v hu hv

theorem PForest.dist_isSome_forest : ∀ (ts : PForest) (u v : String),
    u ∈ PForest.leaves ts → v ∈ PForest.leaves ts → (PForest.dist ts u v).isSome = true
  | .nil, u, v => by simp [PForest.leaves]
  | .cons t ts, u, v => by
    intro hu hv
    simp [PForest.leaves] at hu hv
    by_cases h1 : t.containsLeaf u = true <;> by_cases h2 : t.containsLeaf v = true
    · simpa [PForest.dist, h1, h2] using
        PTree.dist_isSome t u v ((PTree.containsLeaf_iff t u).1 h1) ((PTree.containsLeaf_iff t v).1 h2)
    · have hv2 : v ∈ PForest.leaves ts := by
        rcases hv with hv | hv
        · exact absurd ((PTree.containsLeaf_iff t v).2 hv) h2
        · exact hv
      obtain ⟨du, hdu⟩ := Option.isSome_iff_exists.1 (by simpa [PTree.containsLeaf] using h1)
      obtain ⟨dv, hdv⟩ := Option.isSome_iff_exists.1 ((PForest.isSome_depthOf_iff_forest ts v).2 hv2)
      simp [PForest.dist, h1, h2, hdu, hdv]
    · have hu2 : u ∈ PForest.leaves ts := by
        rcases hu with hu | hu
        · exact absurd ((PTree.containsLeaf_iff t u).2 hu) h1
        · exact hu
      obtain ⟨dv, hdv⟩ := Option.isSome_iff_exists.1 (by simpa [PTree.containsLeaf] using h2)
      obtain ⟨du, hdu⟩ := Option.isSome_iff_exists.1 ((PForest.isSome_depthOf_iff_forest ts u).2 hu2)
      simp [PForest.dist, h1, h2, hdu, hdv]
    · have hu2 : u ∈ PForest.leaves ts := by
        rcases hu with hu | hu
        · exact absurd ((PTree.containsLeaf_iff t u).2 hu) h1
        · exact hu
      have hv2 : v ∈ PForest.leaves ts := by
        rcases hv with hv | hv
        · exact absurd ((PTree.containsLeaf_iff t v).2 hv) h2
        · exact hv
      simpa [PForest.dist, h1, h2] using PForest.dist_isSome_forest ts u v hu2 hv2

end

theorem PForest.depthPar_eq_none : ∀ (ts : PForest) (v : String),
    v ∉ PForest.leaves ts → PForest.depthPar ts v = none
  | .nil, _, _ => rfl
  | .cons (.leaf l b) ts, v, h => by
    simp [PForest.leaves, PTree.leaves] at h
    simp [PForest.depthPar, h.1, PForest.depthPar_eq_none ts v h.2]
  | .cons (.node b cs) ts, v, h => by
    simp [PForest.leaves, PTree.leaves] at h
    simp [PForest.depthPar, PForest.depthPar_eq_none cs v h.1,
      PForest.depthPar_eq_none ts v h.2]

/-- On a leaf of the forest, the depth of the parent node plus the terminal
branch equals the depth of the leaf itself. -/
theorem PForest.depthPar_add_termBr : ∀ (ts : PForest) (v : String),
    v ∈ PForest.leaves ts →
    ∃ d b, PForest.depthPar ts v = some d ∧ PForest.termBr ts v = some b ∧
      PForest.depthOf ts v = some (d + b)
  | .nil, v, h => by simp [PForest.leaves] at h
  | .cons (.leaf l bl) ts, v, h => by
    by_cases hvl : v = l
    · subst hvl
      refine ⟨0, bl, ?_, ?_, ?_⟩ <;>
        simp [PForest.depthPar, PForest.termBr, PForest.depthOf, PTree.termBr,
          PTree.depthOf, PTree.br]
    · simp [PForest.leaves, PTree.leaves, hvl] at h
      obtain ⟨d, b, h1, h2, h3⟩ := PForest.depthPar_add_termBr ts v h
      exact ⟨d, b, by simp [PForest.depthPar, hvl, h1],
        by simp [PForest.termBr, PTree.termBr, hvl, h2],
        by simp [PForest.depthOf, PTree.depthOf, hvl, h3]⟩
  | .cons (.node bn cs) ts, v, h => by
    by_cases hvc : v ∈ PForest.leaves cs
    · obtain ⟨d, b, h1, h2, h3⟩ := PForest.depthPar_add_termBr cs v hvc
      refine ⟨bn + d, b, ?_, ?_, ?_⟩
      · simp [PForest.depthPar, h1]
      · simp [PForest.termBr, PTree.termBr, h2]
      · simp [PForest.depthOf, PTree.depthOf, h3, PTree.br]
        ring
    · simp [PForest.leaves, PTree.leaves] at h
      rcases h with h | h
      · exact absurd h hvc
      obtain ⟨d, b, h1, h2, h3⟩ := PForest.depthPar_add_termBr ts v h
      have hnone : PForest.termBr cs v = none := by
        cases htb : PForest.termBr cs v with
        | none => rfl
        | some b2 => exact absurd ((PForest.isSome_termBr_iff_forest cs v).1 (by simp [htb])) hvc
      have hdnone : PForest.depthOf cs v = none := PForest.depthOf_eq_none_forest cs v hvc
      exact ⟨d, b, by simp [PForest.depthPar, PForest.depthPar_eq_none cs v hvc, h1],
        by simp [PForest.termBr, PTree.termBr, hnone, h2],
        by simp [PForest.depthOf, PTree.depthOf, hdnone, h3]⟩

/-- The two characterisations of the cutback distance of the README agree:
the path length from `u` to the parent of `v` is `d(u,v)` minus the terminal
branch of `v` (forest version). -/
theorem PForest.distPar_eq_forest : ∀ (ts : PForest) (u v : String),
    u ∈ PForest.leaves ts → v ∈ PForest.leaves ts → u ≠ v →
    ∃ d b, PForest.dist ts u v = some d ∧ PForest.termBr ts v = some b ∧
      PForest.distPar ts u v = some (d - b)
  | .nil, u, v, hu, _, _ => by simp [PForest.leaves] at hu
  | .cons (.leaf l bl) ts, u, v, hu, hv, huv => by
    simp [PForest.leaves, PTree.leaves] at hu hv
    by_cases h1 : u = l <;> by_cases h2 : v = l
    · exact absurd (h1.trans h2.symm) huv
    · -- u is the child leaf, v is further right
      have hv2 : v ∈ PForest.leaves ts := by tauto
      obtain ⟨dp, b, hdp, htb, hdep⟩ := PForest.depthPar_add_termBr ts v hv2
      refine ⟨(bl + 0) + (dp + b), b, ?_, ?_, ?_⟩
      · simp [PForest.dist, PTree.containsLeaf, PTree.depthOf, h1, h2, hdep, PTree.br]
      · simp [PForest.termBr, PTree.termBr, h2, htb]
      · simp [PForest.distPar, PTree.containsLeaf, PTree.depthOf, h1, h2, hdp, PTree.br]
        ring
    · -- v is the child leaf, u is further right
      have hu2 : u ∈ PForest.leaves ts := by tauto
      obtain ⟨du, hdu⟩ := Option.isSome_iff_exists.1 ((PForest.isSome_depthOf_iff_forest ts u).2 hu2)
      refine ⟨du + (bl + 0), bl, ?_, ?_, ?_⟩
      · simp [PForest.dist, PTree.containsLeaf, PTree.depthOf, h1, h2, hdu, PTree.br]
      · simp [PForest.termBr, PTree.termBr, h2]
      · simp [PForest.distPar, PTree.containsLeaf, PTree.depthOf, h1, h2, hdu]
    · have hu2 : u ∈ PForest.leaves ts := by tauto
      have hv2 : v ∈ PForest.leaves ts := by tauto
      obtain ⟨d, b, hd, hb, hdp⟩ := PForest.distPar_eq_forest ts u v hu2 hv2 huv
      exact ⟨d, b, by simp [PForest.dist, PTree.containsLeaf, PTree.depthOf, h1, h2, hd],
        by simp [PForest.termBr, PTree.termBr, h2, hb],
        by simp [PForest.distPar, PTree.containsLeaf, PTree.depthOf, h1, h2, hdp]⟩
  | .cons (.node bn cs) ts, u, v, hu, hv, huv => by
    simp [PForest.leaves, PTree.leaves] at hu hv
    by_cases h1 : u ∈ PForest.leaves cs <;> by_cases h2 : v ∈ PForest.leaves cs
    · -- both under this child node: recurse into its children
      obtain ⟨d, b, hd, hb, hdp⟩ := PForest.distPar_eq_forest cs u v h1 h2 huv
      have hc1 : (PTree.node bn cs).containsLeaf u = true := by
        simpa [PTree.containsLeaf_iff, PTree.leaves] using h1
      have hc2 : (PTree.node bn cs).containsLeaf v = true := by
        simpa [PTree.containsLeaf_iff, PTree.leaves] using h2
      exact ⟨d, b, by simp [PForest.dist, hc1, hc2, PTree.dist, hd],
        by simp [PForest.termBr, PTree.termBr, hb],
        by simp [PForest.distPar, hc1, hc2, PTree.distPar, hdp]⟩
    · -- u under the child node, v further right
      have hv2 : v ∈ PForest.leaves ts := by tauto
      have hc1 : (PTree.node bn cs).containsLeaf u = true := by
        simpa [PTree.containsLeaf_iff, PTree.leaves] using h1
      have hc2 : ¬ (PTree.node bn cs).containsLeaf v = true := by
        simpa [PTree.containsLeaf_iff, PTree.leaves] using h2
      obtain ⟨du, hdu⟩ := Option.isSome_iff_exists.1 ((PForest.isSome_depthOf_iff_forest cs u).2 h1)
      obtain ⟨dp, b, hdp, htb, hdep⟩ := PForest.depthPar_add_termBr ts v hv2
      have hbrn : (PTree.node bn cs).br = bn := rfl
      refine ⟨(bn + du) + (dp + b), b, ?_, ?_, ?_⟩
      · simp [PForest.dist, hc1, hc2, PTree.depthOf, hdu, hdep, hbrn]
      · have : PTree.termBr (.node bn cs) v = none := by
          apply PTree.termBr_eq_none
          simpa [PTree.leaves] using h2
        simp [PForest.termBr, this, htb]
      · simp [PForest.distPar, hc1, hc2, PTree.depthOf, hdu, hdp, hbrn]
        ring
    · -- v under the child node, u further right
      have hu2 : u ∈ PForest.leaves ts := by tauto
      have hc1 : ¬ (PTree.node bn cs).containsLeaf u = true := by
        simpa [PTree.containsLeaf_iff, PTree.leaves] using h1
      have hc2 : (PTree.node bn cs).containsLeaf v = true := by
        simpa [PTree.containsLeaf_iff, PTree.leaves] using h2
      obtain ⟨du, hdu⟩ := Option.isSome_iff_exists.1 ((PForest.isSome_depthOf_iff_forest ts u).2 hu2)
      obtain ⟨dp, b, hdp, htb, hdep⟩ := PForest.depthPar_add_termBr cs v h2
      refine ⟨du + (bn + (dp + b)), b, ?_, ?_, ?_⟩
      · simp [PForest.dist, hc1, hc2, PTree.depthOf, hdu, hdep, PTree.br]
      · simp [PForest.termBr, PTree.termBr, htb]
      · simp [PForest.distPar, hc1, hc2, PTree.depthOf, hdu, hdp]
        ring
    · have hu2 : u ∈ PForest.leaves ts := by tauto
      have hv2 : v ∈ PForest.leaves ts := by tauto
      have hc1 : ¬ (PTree.node bn cs).containsLeaf u = true := by
        simpa [PTree.containsLeaf_iff, PTree.leaves] using h1
      have hc2 : ¬ (PTree.node bn cs).containsLeaf v = true := by
        simpa [PTree.containsLeaf_iff, PTree.leaves] using h2
      obtain ⟨d, b, hd, hb, hdp⟩ := PForest.distPar_eq_forest ts u v hu2 hv2 huv
      have : PTree.termBr (.node bn cs) v = none := by
        apply PTree.termBr_eq_none
        simpa [PTree.leaves] using h2
      exact ⟨d, b, by simp [PForest.dist, hc1, hc2, hd],
        by simp [PForest.termBr, this, hb],
        by simp [PForest.distPar, hc1, hc2, hdp]⟩

/-- The two characterisations of the cutback distance of the README agree:
the path length from `u` to the parent of `v` is `d(u,v)` minus the terminal
branch of `v`. -/
theorem PTree.distPar_eq (t : PTree) (u v : String)
    (hu : u ∈ t.leaves) (hv : v ∈ t.leaves) (huv : u ≠ v) :
    ∃ d b, t.dist u v = some d ∧ t.termBr v = some b ∧
      t.distPar u v = some (d - b) := by
  cases t with
  | leaf l b =>
    simp [PTree.leaves] at hu hv
    exact absurd (hu.trans hv.symm) huv
  | node bn cs =>
    simp [PTree.leaves] at hu hv
    simpa [PTree.dist, PTree.termBr, PTree.distPar] using
      PForest.distPar_eq_forest cs u v hu hv huv

/-!
## Insertion: leaf bookkeeping and distance preservation
-/

theorem splitEdge_br (x : ℚ) (s t : PTree) : (splitEdge x s t).br = x := rfl

theorem splitEdge_leaves (x : ℚ) (s t : PTree) :
    (splitEdge x s t).leaves = t.leaves ++ s.leaves := by
  simp [splitEdge, PTree.leaves, PForest.leaves, PTree.leaves_setBr]

theorem perm_append_swap {α : Type} (a b c : List α) :
    ((a ++ b) ++ c).Perm ((a ++ c) ++ b) := by
  rw [List.append_assoc, List.append_assoc]
  exact List.Perm.append_left a List.perm_append_comm

theorem PTree.br_insertSub (t : PTree) (i : ℕ) (rest : List ℕ) (x : ℚ) (s : PTree) :
    (t.insertSub i rest x s).br = t.br := by
  cases t <;> rfl

mutual

theorem PTree.insertSub_leaves_perm : ∀ (t : PTree) (i : ℕ) (rest : List ℕ) (x : ℚ) (s : PTree),
    t.validSub i rest = true →
    (t.insertSub i rest x s).leaves.Perm (t.leaves ++ s.leaves)
  | .leaf l b, i, rest, x, s => by
    intro h
    simp [PTree.validSub] at h
  | .node b cs, i, rest, x, s => by
    intro h
    simpa [PTree.insertSub, PTree.leaves] using
      PForest.insertSub_leaves_perm_forest cs i rest x s (by simpa [PTree.validSub] using h)

theorem PForest.insertSub_leaves_perm_forest : ∀ (ts : PForest) (i : ℕ) (rest : List ℕ) (x : ℚ) (s : PTree),
    PForest.validSub ts i rest = true →
    (PForest.insertSub ts i rest x s).leaves.Perm (PForest.leaves ts ++ s.leaves)
  | .nil, i, rest, x, s => by
    intro h
    simp [PForest.validSub] at h
  | .cons t ts, 0, [], x, s => by
    intro _
    have : (PForest.insertSub (.cons t ts) 0 [] x s).leaves
        = (t.leaves ++ s.leaves) ++ PForest.leaves ts := by
      simp [PForest.insertSub, PForest.leaves, splitEdge_leaves]
    rw [this]
    exact perm_append_swap t.leaves s.leaves (PForest.leaves ts)
  | .cons t ts, 0, j :: rest, x, s => by
    intro h
    have hperm := PTree.insertSub_leaves_perm t j rest x s (by simpa [PForest.validSub] using h)
    have : (PForest.insertSub (.cons t ts) 0 (j :: rest) x s).leaves
        = (t.insertSub j rest x s).leaves ++ PForest.leaves ts := by
      simp [PForest.insertSub, PForest.leaves]
    rw [this]
    exact (hperm.append_right _).trans (perm_append_swap t.leaves s.leaves (PForest.leaves ts))
  | .cons t ts, i + 1, rest, x, s => by
    intro h
    have hperm := PForest.insertSub_leaves_perm_forest ts i rest x s (by simpa [PForest.validSub] using h)
    have : (PForest.insertSub (.cons t ts) (i + 1) rest x s).leaves
        = t.leaves ++ (PForest.insertSub ts i rest x s).leaves := by
      simp [PForest.insertSub, PForest.leaves]
    rw [this, PForest.leaves, List.append_assoc]
    exact hperm.append_left t.leaves

end

theorem PTree.insertAt_leaves_perm (t : PTree) (p : List ℕ) (x : ℚ) (s : PTree)
    (h : t.validPos p = true) :
    (t.insertAt p x s).leaves.Perm (t.leaves ++ s.leaves) := by
  cases p with
  | nil => simp [PTree.validPos] at h
  | cons i rest => exact PTree.insertSub_leaves_perm t i rest x s (by simpa [PTree.validPos] using h)

/-- A valid chain of insertions contributes exactly the leaves of the
inserted elements, as a multiset. -/
theorem completeInto_leaves_perm : ∀ (es : List InsSpec) (t : PTree),
    validChain t es = true →
    (completeInto t es).leaves.Perm (t.leaves ++ (es.map fun e => e.sub.leaves).flatten)
  | [], t, _ => by simp [completeInto, validChain]
  | e :: es, t, h => by
    rw [validChain, Bool.and_eq_true] at h
    have h2 := completeInto_leaves_perm es (t.insertAt e.path e.offset e.sub) h.2
    have h1 := PTree.insertAt_leaves_perm t e.path e.offset e.sub h.1
    have : (completeInto t (e :: es)) = completeInto (t.insertAt e.path e.offset e.sub) es := rfl
    rw [this]
    refine h2.trans ?_
    have h3 := h1.append_right ((es.map fun e => e.sub.leaves).flatten)
    refine h3.trans ?_
    simp [List.append_assoc]

theorem PTree.depthOf_splitEdge (x : ℚ) (s t : PTree) (u : String) (hs : u ∉ s.leaves) :
    (splitEdge x s t).depthOf u = (t.depthOf u).map (fun d => (t.br - x) + d) := by
  cases hd : t.depthOf u with
  | some d =>
    simp [splitEdge, PTree.depthOf, PForest.depthOf, PTree.depthOf_setBr, hd, PTree.br_setBr]
  | none =>
    have hs' : s.depthOf u = none := PTree.depthOf_eq_none s u hs
    simp [splitEdge, PTree.depthOf, PForest.depthOf, PTree.depthOf_setBr, hd, hs']

theorem PTree.containsLeaf_splitEdge (x : ℚ) (s t : PTree) (u : String) (hs : u ∉ s.leaves) :
    (splitEdge x s t).containsLeaf u = t.containsLeaf u := by
  simp [PTree.containsLeaf, PTree.depthOf_splitEdge x s t u hs]

theorem PTree.dist_splitEdge (x : ℚ) (s t : PTree) (u v : String)
    (hu : u ∈ t.leaves) (hv : v ∈ t.leaves) :
    (splitEdge x s t).dist u v = t.dist u v := by
  have hcu : (t.setBr (t.br - x)).containsLeaf u = true := by
    simp [PTree.containsLeaf_setBr, PTree.containsLeaf_iff, hu]
  have hcv : (t.setBr (t.br - x)).containsLeaf v = true := by
    simp [PTree.containsLeaf_setBr, PTree.containsLeaf_iff, hv]
  simp [splitEdge, PTree.dist, PForest.dist, hcu, hcv, PTree.dist_setBr]

mutual

theorem PTree.depthOf_insertSub : ∀ (t : PTree) (i : ℕ) (rest : List ℕ) (x : ℚ) (s : PTree)
    (u : String), u ∉ s.leaves →
    (t.insertSub i rest x s).depthOf u = t.depthOf u
  | .leaf l b, _, _, _, _, _, _ => rfl
  | .node b cs, i, rest, x, s, u, hs => by
    simpa [PTree.insertSub, PTree.depthOf] using PForest.depthOf_insertSub_forest cs i rest x s u hs

theorem PForest.depthOf_insertSub_forest : ∀ (ts : PForest) (i : ℕ) (rest : List ℕ) (x : ℚ) (s : PTree)
    (u : String), u ∉ s.leaves →
    PForest.depthOf (PForest.insertSub ts i rest x s) u = PForest.depthOf ts u
  | .nil, _, _, _, _, _, _ => rfl
  | .cons t ts, 0, [], x, s, u, hs => by
    cases hd : t.depthOf u with
    | some d =>
      have : (splitEdge x s t).depthOf u = some ((t.br - x) + d) := by
        simp [PTree.depthOf_splitEdge x s t u hs, hd]
      simp [PForest.insertSub, PForest.depthOf, this, hd, splitEdge_br]
      ring
    | none =>
      have : (splitEdge x s t).depthOf u = none := by
        simp [PTree.depthOf_splitEdge x s t u hs, hd]
      simp [PForest.insertSub, PForest.depthOf, this, hd]
  | .cons t ts, 0, j :: rest, x, s, u, hs => by
    simp [PForest.insertSub, PForest.depthOf, PTree.depthOf_insertSub t j rest x s u hs,
      PTree.br_insertSub]
  | .cons t ts, i + 1, rest, x, s, u, hs => by
    simp [PForest.insertSub, PForest.depthOf, PForest.depthOf_insertSub_forest ts i rest x s u hs]

end

theorem PTree.containsLeaf_insertSub (t : PTree) (i : ℕ) (rest : List ℕ) (x : ℚ) (s : PTree)
    (u : String) (hs : u ∉ s.leaves) :
    (t.insertSub i rest x s).containsLeaf u = t.containsLeaf u := by
  simp [PTree.containsLeaf, PTree.depthOf_insertSub t i rest x s u hs]

mutual

theorem PTree.dist_insertSub : ∀ (t : PTree) (i : ℕ) (rest : List ℕ) (x : ℚ) (s : PTree)
    (u v : String), u ∉ s.leaves → v ∉ s.leaves →
    (t.insertSub i rest x s).dist u v = t.dist u v
  | .leaf l b, _, _, _, _, _, _, _, _ => rfl
  | .node b cs, i, rest, x, s, u, v, hsu, hsv => by
    simpa [PTree.insertSub, PTree.dist] using PForest.dist_insertSub_forest cs i rest x s u v hsu hsv

theorem PForest.dist_insertSub_forest : ∀ (ts : PForest) (i : ℕ) (rest : List ℕ) (x : ℚ) (s : PTree)
    (u v : String), u ∉ s.leaves → v ∉ s.leaves →
    PForest.dist (PForest.insertSub ts i rest x s) u v = PForest.dist ts u v
  | .nil, _, _, _, _, _, _, _, _ => rfl
  | .cons t ts, 0, [], x, s, u, v, hsu, hsv => by
    by_cases h1 : t.containsLeaf u = true <;> by_cases h2 : t.containsLeaf v = true
    · have hd := PTree.dist_splitEdge x s t u v
        ((PTree.containsLeaf_iff t u).1 h1) ((PTree.containsLeaf_iff t v).1 h2)
      simp [PForest.insertSub, PForest.dist, PTree.containsLeaf_splitEdge x s t u hsu,
        PTree.containsLeaf_splitEdge x s t v hsv, h1, h2, hd]
    · obtain ⟨du, hdu⟩ := Option.isSome_iff_exists.1 (by simpa [PTree.containsLeaf] using h1)
      have hdu2 : (splitEdge x s t).depthOf u = some ((t.br - x) + du) := by
        simp [PTree.depthOf_splitEdge x s t u hsu, hdu]
      cases hdv : PForest.depthOf ts v with
      | some dv =>
        simp [PForest.insertSub, PForest.dist, PTree.containsLeaf_splitEdge x s t u hsu,
          PTree.containsLeaf_splitEdge x s t v hsv, h1, h2, hdu, hdu2, hdv, splitEdge_br]
        ring
      | none =>
        simp [PForest.insertSub, PForest.dist, PTree.containsLeaf_splitEdge x s t u hsu,
          PTree.containsLeaf_splitEdge x s t v hsv, h1, h2, hdu, hdu2, hdv]
    · obtain ⟨dv, hdv⟩ := Option.isSome_iff_exists.1 (by simpa [PTree.containsLeaf] using h2)
      have hdv2 : (splitEdge x s t).depthOf v = some ((t.br - x) + dv) := by
        simp [PTree.depthOf_splitEdge x s t v hsv, hdv]
      cases hdu : PForest.depthOf ts u with
      | some du =>
        simp [PForest.insertSub, PForest.dist, PTree.containsLeaf_splitEdge x s t u hsu,
          PTree.containsLeaf_splitEdge x s t v hsv, h1, h2, hdv, hdv2, hdu, splitEdge_br]
        ring
      | none =>
        simp [PForest.insertSub, PForest.dist, PTree.containsLeaf_splitEdge x s t u hsu,
          PTree.containsLeaf_splitEdge x s t v hsv, h1, h2, hdv, hdv2, hdu]
    · simp [PForest.insertSub, PForest.dist, PTree.containsLeaf_splitEdge x s t u hsu,
        PTree.containsLeaf_splitEdge x s t v hsv, h1, h2]
  | .cons t ts, 0, j :: rest, x, s, u, v, hsu, hsv => by
    by_cases h1 : t.containsLeaf u = true <;> by_cases h2 : t.containsLeaf v = true <;>
      simp [PForest.insertSub, PForest.dist, PTree.containsLeaf_insertSub t j rest x s u hsu,
        PTree.containsLeaf_insertSub t j rest x s v hsv, h1, h2, PTree.br_insertSub,
        PTree.depthOf_insertSub t j rest x s u hsu, PTree.depthOf_insertSub t j rest x s v hsv,
        PTree.dist_insertSub t j rest x s u v hsu hsv]
  | .cons t ts, i + 1, rest, x, s, u, v, hsu, hsv => by
    by_cases h1 : t.containsLeaf u = true <;> by_cases h2 : t.containsLeaf v = true <;>
      simp [PForest.insertSub, PForest.dist, h1, h2,
        PForest.depthOf_insertSub_forest ts i rest x s u hsu,
        PForest.depthOf_insertSub_forest ts i rest x s v hsv,
        PForest.dist_insertSub_forest ts i rest x s u v hsu hsv]

end

theorem PTree.dist_insertAt (t : PTree) (p : List ℕ) (x : ℚ) (s : PTree) (u v : String)
    (hsu : u ∉ s.leaves) (hsv : v ∉ s.leaves) :
    (t.insertAt p x s).dist u v = t.dist u v := by
  cases p with
  | nil => rfl
  | cons i rest => exact PTree.dist_insertSub t i rest x s u v hsu hsv

/-- Distances between leaves that do not belong to any inserted element are
unchanged by a whole completion pass, valid or not. -/
theorem completeInto_dist : ∀ (es : List InsSpec) (t : PTree) (u v : String),
    (∀ e ∈ es, u ∉ e.sub.leaves ∧ v ∉ e.sub.leaves) →
    (completeInto t es).dist u v = t.dist u v
  | [], t, u, v, _ => rfl
  | e :: es, t, u, v, h => by
    have he := h e (by simp)
    have hrest : ∀ e2 ∈ es, u ∉ e2.sub.leaves ∧ v ∉ e2.sub.leaves := by
      intro e2 he2
      exact h e2 (by simp [he2])
    have : (completeInto t (e :: es)) = completeInto (t.insertAt e.path e.offset e.sub) es := rfl
    rw [this, completeInto_dist es _ u v hrest,
      PTree.dist_insertAt t e.path e.offset e.sub u v he.1 he.2]

/-!
## Pair sums over a list versus sums over unordered pairs
-/

/-- The `Σ_{i<j}` double sum over a duplicate-free list of leaves equals the
sum over the unordered pairs of the corresponding finite set, each pair
counted once (represented by its increasingly ordered copy). -/
theorem listPairSum_eq_finset (f : String → String → ℚ) (hsym : ∀ x y, f x y = f y x) :
    ∀ (L : List String), L.Nodup →
      listPairSum f L =
        ∑ p ∈ (L.toFinset ×ˢ L.toFinset).filter (fun p => p.1 < p.2), f p.1 p.2
  | [], _ => by simp [listPairSum]
  | l :: ls, h => by
    rw [List.nodup_cons] at h
    obtain ⟨hl, hnd⟩ := h
    have hlF : l ∉ ls.toFinset := by simpa using hl
    have key : ∀ (M : Finset String),
        ∑ p ∈ (M ×ˢ M).filter (fun p => p.1 < p.2), f p.1 p.2
          = ∑ x ∈ M, ∑ y ∈ M, if x < y then f x y else 0 := by
      intro M
      rw [Finset.sum_filter, Finset.sum_product]
    rw [listPairSum, List.toFinset_cons, key, Finset.sum_insert hlF,
      Finset.sum_insert hlF]
    have hrow : ∀ x ∈ ls.toFinset,
        (∑ y ∈ insert l ls.toFinset, if x < y then f x y else 0)
          = (if x < l then f x l else 0) + ∑ y ∈ ls.toFinset, if x < y then f x y else 0 :=
      fun x _ => Finset.sum_insert hlF
    rw [Finset.sum_congr rfl hrow, Finset.sum_add_distrib]
    have hcomb : (if l < l then f l l else 0)
          + ∑ y ∈ ls.toFinset, (if l < y then f l y else 0)
          + ((∑ x ∈ ls.toFinset, if x < l then f x l else 0)
            + ∑ x ∈ ls.toFinset, ∑ y ∈ ls.toFinset, if x < y then f x y else 0)
        = (∑ y ∈ ls.toFinset, f l y)
          + ∑ x ∈ ls.toFinset, ∑ y ∈ ls.toFinset, if x < y then f x y else 0 := by
      rw [if_neg (lt_irrefl l), zero_add, ← add_assoc, ← Finset.sum_add_distrib]
      congr 1
      refine Finset.sum_congr rfl ?_
      intro y hy
      have hyl : y ≠ l := by
        intro heq
        exact hlF (heq ▸ hy)
      rcases lt_trichotomy l y with hlt | heq | hgt
      · simp [hlt, not_lt_of_gt hlt]
      · exact absurd heq.symm hyl
      · simp [hgt, not_lt_of_gt hgt, hsym l y]
    rw [hcomb, ← key, ← listPairSum_eq_finset f hsym ls hnd,
      ← List.sum_toFinset (f l) hnd]

/-- `Σ_{i<j}` pair sums of a symmetric function depend only on the set of
leaves, not on their enumeration order. -/
theorem listPairSum_congr (f : String → String → ℚ) (hsym : ∀ x y, f x y = f y x)
    (L1 L2 : List String) (h1 : L1.Nodup) (h2 : L2.Nodup)
    (hset : L1.toFinset = L2.toFinset) :
    listPairSum f L1 = listPairSum f L2 := by
  rw [listPairSum_eq_finset f hsym L1 h1, listPairSum_eq_finset f hsym L2 h2, hset]

theorem dq_symm (t : PTree) (u v : String) : dq t u v = dq t v u := by
  simp [dq, PTree.dist_symm]

theorem sqDiffDist_symm (t1 t2 : PTree) (u v : String) :
    sqDiffDist t1 t2 u v = sqDiffDist t1 t2 v u := by
  simp [sqDiffDist, dq_symm t1 u v, dq_symm t2 u v]

theorem commonLeaves_nodup (t1 t2 : PTree) (h : t1.leaves.Nodup) :
    (commonLeaves t1 t2).Nodup := h.filter _

theorem mem_commonLeaves (t1 t2 : PTree) (l : String) :
    l ∈ commonLeaves t1 t2 ↔ l ∈ t1.leaves ∧ l ∈ t2.leaves := by
  simp [commonLeaves]

theorem commonLeaves_toFinset_comm (t1 t2 : PTree) :
    (commonLeaves t1 t2).toFinset = (commonLeaves t2 t1).toFinset := by
  ext l
  simp [mem_commonLeaves]
  tauto

/-!
## Rescaling lemmas
-/

theorem PTree.br_rescale (r : ℚ) (t : PTree) : (PTree.rescale r t).br = r * t.br := by
  cases t <;> rfl

mutual

theorem PTree.branches_rescale : ∀ (r : ℚ) (t : PTree),
    (PTree.rescale r t).branches = t.branches.map (fun b => r * b)
  | r, .leaf l b => by simp [PTree.rescale, PTree.branches]
  | r, .node b cs => by
    simp [PTree.rescale, PTree.branches, PForest.branches_rescale_forest r cs]

theorem PForest.branches_rescale_forest : ∀ (r : ℚ) (ts : PForest),
    (PForest.rescale r ts).branches = ts.branches.map (fun b => r * b)
  | r, .nil => by simp [PForest.rescale, PForest.branches]
  | r, .cons t ts => by
    simp [PForest.rescale, PForest.branches, PTree.branches_rescale r t,
      PForest.branches_rescale_forest r ts]

end

/-!
## Notebook fold lemmas
-/

/-- Invariant of the cell-4 accumulation loop: the success count and the
taxon-count list grow by exactly the number of counted lines, the RF list by
at most that number. -/
theorem processFrom_stats (inputSets : List Bool) :
    ∀ (lns : List SupLine) (idx : ℕ) (acc : MethodAcc),
    (∀ ln ∈ lns, ln.blank = true → ln.parsed = none) →
    ((processFrom inputSets idx lns acc).successCount
        = acc.successCount + (List.enumFrom idx lns).countP
            (fun p => p.2.parsed.isSome && (inputSets[p.1]?).getD false))
    ∧ ((processFrom inputSets idx lns acc).taxonCounts.length
        = acc.taxonCounts.length + (List.enumFrom idx lns).countP
            (fun p => p.2.parsed.isSome && (inputSets[p.1]?).getD false))
    ∧ ((processFrom inputSets idx lns acc).rfDistances.length
        ≤ acc.rfDistances.length + (List.enumFrom idx lns).countP
            (fun p => p.2.parsed.isSome && (inputSets[p.1]?).getD false))
  | [], idx, acc, _ => by simp [processFrom, List.enumFrom]
  | ln :: lns, idx, acc, hb => by
    have hbrest : ∀ l ∈ lns, l.blank = true → l.parsed = none := fun l hl => hb l (by simp [hl])
    have ih := processFrom_stats inputSets lns (idx + 1) (processLine inputSets idx ln acc) hbrest
    have hstep : processFrom inputSets idx (ln :: lns) acc
        = processFrom inputSets (idx + 1) lns (processLine inputSets idx ln acc) := rfl
    by_cases hblank : ln.blank = true
    · have hpn : ln.parsed = none := hb ln (by simp) hblank
      have hacc : processLine inputSets idx ln acc = acc := by
        simp [processLine, hblank]
      rw [hacc] at ih
      rw [hstep, hacc]
      simpa [List.enumFrom, List.countP_cons, hpn] using ih
    · cases hp : ln.parsed with
      | none =>
        have hacc : processLine inputSets idx ln acc = acc := by
          simp [processLine, hblank, hp]
        rw [hacc] at ih
        rw [hstep, hacc]
        simpa [List.enumFrom, List.countP_cons, hp] using ih
      | some taxa =>
        cases hg : inputSets[idx]? with
        | none =>
          have hacc : processLine inputSets idx ln acc = acc := by
            simp [processLine, hblank, hp, hg]
          rw [hacc] at ih
          rw [hstep, hacc]
          simpa [List.enumFrom, List.countP_cons, hp, hg] using ih
        | some b =>
          cases b with
          | false =>
            have hacc : processLine inputSets idx ln acc = acc := by
              simp [processLine, hblank, hp, hg]
            rw [hacc] at ih
            rw [hstep, hacc]
            simpa [List.enumFrom, List.countP_cons, hp, hg] using ih
          | true =>
            cases hrf : ln.rfVal with
            | some rf =>
              have hacc : processLine inputSets idx ln acc
                  = ⟨acc.successCount + 1, acc.taxonCounts ++ [taxa],
                      acc.rfDistances ++ [rf]⟩ := by
                simp [processLine, hblank, hp, hg, hrf]
              rw [hacc] at ih
              rw [hstep, hacc]
              obtain ⟨ih1, ih2, ih3⟩ := ih
              refine ⟨?_, ?_, ?_⟩
              · rw [ih1]
                simp [List.enumFrom, List.countP_cons, hp, hg]
                omega
              · rw [ih2]
                simp [List.enumFrom, List.countP_cons, hp, hg]
                omega
              · refine le_trans ih3 ?_
                simp [List.enumFrom, List.countP_cons, hp, hg]
                omega
            | none =>

              have hacc : processLine inputSets idx ln acc
                  = ⟨acc.successCount + 1, acc.taxonCounts ++ [taxa], acc.rfDistances⟩ := by
                simp [processLine, hblank, hp, hg, hrf]
              rw [hacc] at ih
              rw [hstep, hacc]
              obtain ⟨ih1, ih2, ih3⟩ := ih
              refine ⟨?_, ?_, ?_⟩
              · rw [ih1]
                simp [List.enumFrom, List.countP_cons, hp, hg]
                omega
              · rw [ih2]
                simp [List.enumFrom, List.countP_cons, hp, hg]
                omega
              · refine le_trans ih3 ?_
                simp [List.enumFrom, List.countP_cons, hp, hg]

/-!
## Example trees used by the witnesses
-/

/-- Example input tree with leaves A, B, C. -/
def exT1 : PTree :=
  .node 0 (.cons (.leaf "A" 1) (.cons (.leaf "B" 2) (.cons (.leaf "C" 3) .nil)))

/-- Example input tree with leaves A, B, D, overlapping `exT1`. -/
def exT2 : PTree :=
  .node 0 (.cons (.leaf "A" 2) (.cons (.leaf "B" 1) (.cons (.leaf "D" 1) .nil)))

/-- A tree carrying the same leaf set as `exT1`. -/
def exT1b : PTree :=
  .node 0 (.cons (.leaf "A" 2) (.cons (.leaf "B" 1) (.cons (.leaf "C" 1) .nil)))

/-- A tree whose leaves are disjoint from those of `exT1`. -/
def exDisj : PTree :=
  .node 0 (.cons (.leaf "X" 1) (.cons (.leaf "Y" 2) .nil))

/-!
## Claim theorems
-/

/-- C1: On two completed trees carrying the same (duplicate-free) leaf set,
the BSD calculator returns `BSD(+)`: the square root of the sum, over all
unordered pairs of leaves of `L(T1) ∪ L(T2)`, of the squared distance
differences — the calculator's `i < j` iteration over the leaf list equals
the sum over unordered pairs of the leaf set. -/
theorem bsd_plus_eq_sqrt_unordered_pair_sum (t1 t2 : PTree)
    (hnd : t1.leaves.Nodup) (hsame : t1.leaves.toFinset = t2.leaves.toFinset) :
    bsdPlusSq t1 t2
      = (∑ p ∈ ((t1.leaves.toFinset ×ˢ t1.leaves.toFinset).filter fun p => p.1 < p.2),
          sqDiffDist t1 t2 p.1 p.2)
    ∧ Real.sqrt (bsdPlusSq t1 t2)
      = Real.sqrt ((∑ p ∈ ((t1.leaves.toFinset ×ˢ t1.leaves.toFinset).filter fun p => p.1 < p.2),
          sqDiffDist t1 t2 p.1 p.2 : ℚ)) := by
  have h := listPairSum_eq_finset (sqDiffDist t1 t2) (sqDiffDist_symm t1 t2) t1.leaves hnd
  exact ⟨h, by rw [bsdPlusSq, h]⟩

/-- Witness for C1 on the concrete pair `exT1`, `exT1b`. -/
theorem bsd_plus_eq_sqrt_unordered_pair_sum_witness :
    bsdPlusSq exT1 exT1b
      = (∑ p ∈ ((exT1.leaves.toFinset ×ˢ exT1.leaves.toFinset).filter fun p => p.1 < p.2),
          sqDiffDist exT1 exT1b p.1 p.2)
    ∧ Real.sqrt (bsdPlusSq exT1 exT1b)
      = Real.sqrt ((∑ p ∈ ((exT1.leaves.toFinset ×ˢ exT1.leaves.toFinset).filter fun p => p.1 < p.2),
          sqDiffDist exT1 exT1b p.1 p.2 : ℚ)) :=
  bsd_plus_eq_sqrt_unordered_pair_sum exT1 exT1b (by decide) (by decide)

/-- C2: the global adjustment rate is the quotient of the summed pairwise
common-leaf distances, `r(T2,T1)` is its reciprocal, and whenever both sums
are nonzero the two rates multiply to exactly `1`. -/
theorem adjustment_rate_reciprocity (t1 t2 : PTree)
    (hnd1 : t1.leaves.Nodup) (hnd2 : t2.leaves.Nodup)
    (h1 : listPairSum (dq t1) (commonLeaves t1 t2) ≠ 0)
    (h2 : listPairSum (dq t2) (commonLeaves t1 t2) ≠ 0) :
    adjRate t1 t2
        = listPairSum (dq t1) (commonLeaves t1 t2) / listPairSum (dq t2) (commonLeaves t1 t2)
    ∧ adjRate t2 t1 = 1 / adjRate t1 t2
    ∧ adjRate t1 t2 * adjRate t2 t1 = 1 := by
  have e1 : listPairSum (dq t1) (commonLeaves t2 t1) = listPairSum (dq t1) (commonLeaves t1 t2) :=
    listPairSum_congr _ (dq_symm t1) _ _ (commonLeaves_nodup t2 t1 hnd2)
      (commonLeaves_nodup t1 t2 hnd1) (commonLeaves_toFinset_comm t2 t1)
  have e2 : listPairSum (dq t2) (commonLeaves t2 t1) = listPairSum (dq t2) (commonLeaves t1 t2) :=
    listPairSum_congr _ (dq_symm t2) _ _ (commonLeaves_nodup t2 t1 hnd2)
      (commonLeaves_nodup t1 t2 hnd1) (commonLeaves_toFinset_comm t2 t1)
  have hr : adjRate t2 t1
      = listPairSum (dq t2) (commonLeaves t1 t2) / listPairSum (dq t1) (commonLeaves t1 t2) := by
    rw [adjRate, e1, e2]
  refine ⟨rfl, ?_, ?_⟩
  · rw [hr, adjRate, one_div_div]
  · rw [adjRate, hr]
    field_simp

/-- Witness for C2 on the concrete pair `exT1`, `exT2`. -/
theorem adjustment_rate_reciprocity_witness :
    adjRate exT1 exT2
        = listPairSum (dq exT1) (commonLeaves exT1 exT2)
          / listPairSum (dq exT2) (commonLeaves exT1 exT2)
    ∧ adjRate exT2 exT1 = 1 / adjRate exT1 exT2
    ∧ adjRate exT1 exT2 * adjRate exT2 exT1 = 1 :=
  adjustment_rate_reciprocity exT1 exT2 (by decide) (by decide)
    (by
      simp +decide [listPairSum, commonLeaves, dq, exT1, exT2, PTree.dist, PForest.dist,
        PTree.containsLeaf, PTree.depthOf, PForest.depthOf, PTree.br, PTree.leaves,
        PForest.leaves]
      norm_num)
    (by
      simp +decide [listPairSum, commonLeaves, dq, exT1, exT2, PTree.dist, PForest.dist,
        PTree.containsLeaf, PTree.depthOf, PForest.depthOf, PTree.br, PTree.leaves,
        PForest.leaves]
      norm_num)

theorem mem_distinctLeaves (t other : PTree) (l : String) :
    l ∈ distinctLeaves t other ↔ l ∈ t.leaves ∧ l ∉ other.leaves := by
  simp [distinctLeaves]

/-- After a valid completion pass that inserts exactly the distinct leaves of
the source tree, every leaf of the union appears exactly once, and the leaf
list has the cardinality of the union of the two leaf sets. -/
theorem completeInto_union_once (src tgt : PTree) (es : List InsSpec)
    (hv : validChain tgt es = true)
    (hm : ((es.map fun e => e.sub.leaves).flatten).Perm (distinctLeaves src tgt))
    (hnds : src.leaves.Nodup) (hndt : tgt.leaves.Nodup) :
    (∀ l ∈ src.leaves.toFinset ∪ tgt.leaves.toFinset,
      (completeInto tgt es).leaves.count l = 1)
    ∧ (completeInto tgt es).leaves.length
        = (src.leaves.toFinset ∪ tgt.leaves.toFinset).card := by
  have hp : (completeInto tgt es).leaves.Perm (tgt.leaves ++ distinctLeaves src tgt) :=
    (completeInto_leaves_perm es tgt hv).trans (hm.append_left tgt.leaves)
  have hdl : (distinctLeaves src tgt).Nodup := hnds.filter _
  have hdlset : (distinctLeaves src tgt).toFinset
      = src.leaves.toFinset \ tgt.leaves.toFinset := by
    ext l
    simp [mem_distinctLeaves]
  constructor
  · intro l hl
    rw [hp.count_eq, List.count_append]
    by_cases hmem : l ∈ tgt.leaves
    · rw [List.count_eq_one_of_mem hndt hmem,
        List.count_eq_zero_of_not_mem (fun hc => ((mem_distinctLeaves src tgt l).1 hc).2 hmem)]
    · have hsrc : l ∈ src.leaves := by
        simp at hl
        tauto
      rw [List.count_eq_zero_of_not_mem hmem,
        List.count_eq_one_of_mem hdl ((mem_distinctLeaves src tgt l).2 ⟨hsrc, hmem⟩)]
  · rw [hp.length_eq, List.length_append]
    rw [← List.toFinset_card_of_nodup hndt, ← List.toFinset_card_of_nodup hdl, hdlset,
      add_comm, Finset.card_sdiff_add_card]

/-- C3: a completed pair of trees produced by the orchestrator — each built
from a valid chain of insertions whose inserted material is exactly the
distinct-leaf multiset of the other tree — carries every label of
`L(T1) ∪ L(T2)` exactly once, and both completed leaf lists have the size of
the union of the two leaf sets. -/
theorem completed_trees_carry_union_once (t1 t2 : PTree) (es1 es2 : List InsSpec)
    (hv1 : validChain t2 es1 = true) (hv2 : validChain t1 es2 = true)
    (hm1 : ((es1.map fun e => e.sub.leaves).flatten).Perm (distinctLeaves t1 t2))
    (hm2 : ((es2.map fun e => e.sub.leaves).flatten).Perm (distinctLeaves t2 t1))
    (hnd1 : t1.leaves.Nodup) (hnd2 : t2.leaves.Nodup) :
    (∀ l ∈ t1.leaves.toFinset ∪ t2.leaves.toFinset,
      (completeInto t2 es1).leaves.count l = 1 ∧ (completeInto t1 es2).leaves.count l = 1)
    ∧ (completeInto t2 es1).leaves.length = (t1.leaves.toFinset ∪ t2.leaves.toFinset).card
    ∧ (completeInto t1 es2).leaves.length = (t1.leaves.toFinset ∪ t2.leaves.toFinset).card := by
  obtain ⟨hc1, hl1⟩ := completeInto_union_once t1 t2 es1 hv1 hm1 hnd1 hnd2
  obtain ⟨hc2, hl2⟩ := completeInto_union_once t2 t1 es2 hv2 hm2 hnd2 hnd1
  rw [Finset.union_comm] at hc2 hl2
  exact ⟨fun l hl => ⟨hc1 l hl, hc2 l hl⟩, hl1, hl2⟩

/-- Witness for C3: a valid single insertion on each side of the concrete
pair `exT1`, `exT2` (inserting leaf D into `exT1` and leaf C into `exT2`). -/
theorem completed_trees_carry_union_once_witness :
    (∀ l ∈ exT1.leaves.toFinset ∪ exT2.leaves.toFinset,
      (completeInto exT2 [⟨[0], 1, .leaf "C" 2⟩]).leaves.count l = 1
      ∧ (completeInto exT1 [⟨[1], 1, .leaf "D" 2⟩]).leaves.count l = 1)
    ∧ (completeInto exT2 [⟨[0], 1, .leaf "C" 2⟩]).leaves.length
        = (exT1.leaves.toFinset ∪ exT2.leaves.toFinset).card
    ∧ (completeInto exT1 [⟨[1], 1, .leaf "D" 2⟩]).leaves.length
        = (exT1.leaves.toFinset ∪ exT2.leaves.toFinset).card :=
  completed_trees_carry_union_once exT1 exT2 [⟨[0], 1, .leaf "C" 2⟩] [⟨[1], 1, .leaf "D" 2⟩]
    (by decide) (by decide) (by decide) (by decide) (by decide) (by decide)

/-- C4: distances between common leaves are preserved by completion — any
sequence of insertions of material disjoint from the target tree leaves the
pairwise distances of the original leaves unchanged, on both sides — and
splitting a branch produces two segments whose lengths sum to the original
branch length. -/
theorem common_leaf_distances_preserved (t1 t2 : PTree) (es1 es2 : List InsSpec) (li lj : String)
    (hi : li ∈ commonLeaves t1 t2) (hj : lj ∈ commonLeaves t1 t2)
    (hd1 : ∀ e ∈ es1, ∀ l ∈ PTree.leaves e.sub, l ∉ t2.leaves)
    (hd2 : ∀ e ∈ es2, ∀ l ∈ PTree.leaves e.sub, l ∉ t1.leaves) :
    (completeInto t2 es1).dist li lj = t2.dist li lj
    ∧ (completeInto t1 es2).dist li lj = t1.dist li lj
    ∧ ∀ (x : ℚ) (s t : PTree), (splitEdge x s t).br + (t.setBr (t.br - x)).br = t.br := by
  obtain ⟨hi1, hi2⟩ := (mem_commonLeaves t1 t2 li).1 hi
  obtain ⟨hj1, hj2⟩ := (mem_commonLeaves t1 t2 lj).1 hj
  refine ⟨?_, ?_, ?_⟩
  · exact completeInto_dist es1 t2 li lj fun e he =>
      ⟨fun hc => hd1 e he li hc hi2, fun hc => hd1 e he lj hc hj2⟩
  · exact completeInto_dist es2 t1 li lj fun e he =>
      ⟨fun hc => hd2 e he li hc hi1, fun hc => hd2 e he lj hc hj1⟩
  · intro x s t
    rw [splitEdge_br, PTree.br_setBr]
    ring

/-- Witness for C4 on the concrete pair `exT1`, `exT2` with the same
insertions as the C3 witness, at the common leaves A and B. -/
theorem common_leaf_distances_preserved_witness :
    (completeInto exT2 [⟨[0], 1, .leaf "C" 2⟩]).dist "A" "B" = exT2.dist "A" "B"
    ∧ (completeInto exT1 [⟨[1], 1, .leaf "D" 2⟩]).dist "A" "B" = exT1.dist "A" "B"
    ∧ ∀ (x : ℚ) (s t : PTree), (splitEdge x s t).br + (t.setBr (t.br - x)).br = t.br :=
  common_leaf_distances_preserved exT1 exT2 [⟨[0], 1, .leaf "C" 2⟩] [⟨[1], 1, .leaf "D" 2⟩]
    "A" "B" (by decide) (by decide) (by decide) (by decide)

/-- C5: the orchestrator never mutates the two input trees: one full run
(copying, rescaling by the adjustment rates, and inserting all transferred
elements into the working copies) leaves both input trees of the run state
unchanged, topology and branch lengths included. -/
theorem inputs_never_mutated (sd1 sd2 : List InsSpec) (s : RunState) :
    (orchestrate sd1 sd2 s).input1 = s.input1
    ∧ (orchestrate sd1 sd2 s).input2 = s.input2 := by
  constructor <;> rfl

/-- Counterexample to C6: on the concrete disjoint pair `exT1`, `exDisj`
(no common leaves) the BSD script of the repository reports that the
distance cannot be computed — it does not join the trees under a synthetic
root, and no BSD value is produced. -/
theorem no_common_leaves_uncomputable_cex :
    commonLeaves exT1 exDisj = []
    ∧ bsdScenario exT1 exDisj = BsdOutcome.noCommon
    ∧ ∀ v : ℚ, bsdScenario exT1 exDisj ≠ BsdOutcome.bsd v := by
  have h1 : commonLeaves exT1 exDisj = [] := by decide
  have h2 : exT1.leaves.toFinset ≠ exDisj.leaves.toFinset := by decide
  have h3 : bsdScenario exT1 exDisj = BsdOutcome.noCommon := by
    simp [bsdScenario, h1, h2]
  refine ⟨h1, h3, ?_⟩
  intro v
  rw [h3]
  simp

/-- C6 as amended: when the two input trees have no common leaves (and hence
different leaf sets), the BSD script computes no distance; it reports that
the BSD cannot be computed, as an informative outcome rather than an
exception. -/
theorem no_common_leaves_reports_uncomputable (t1 t2 : PTree)
    (h : commonLeaves t1 t2 = [])
    (hne : t1.leaves.toFinset ≠ t2.leaves.toFinset) :
    bsdScenario t1 t2 = BsdOutcome.noCommon
    ∧ ∀ v : ℚ, bsdScenario t1 t2 ≠ BsdOutcome.bsd v ∧ bsdScenario t1 t2 ≠ BsdOutcome.bsdMinus v := by
  have hmain : bsdScenario t1 t2 = BsdOutcome.noCommon := by
    simp [bsdScenario, h, hne]
  refine ⟨hmain, fun v => ?_⟩
  rw [hmain]
  simp

/-- Witness for the amended C6 on the concrete pair `exT1`, `exDisj`. -/
theorem no_common_leaves_reports_uncomputable_witness :
    bsdScenario exT1 exDisj = BsdOutcome.noCommon
    ∧ ∀ v : ℚ, bsdScenario exT1 exDisj ≠ BsdOutcome.bsd v
      ∧ bsdScenario exT1 exDisj ≠ BsdOutcome.bsdMinus v :=
  no_common_leaves_reports_uncomputable exT1 exDisj (by decide) (by decide)

/-- C7: the temporary-position distance of `PositionFinder` equals the
cutback distance — taken here in its primary path form, the sum of branch
lengths between `l_k` and the parent node of `a` — multiplied by the
leaf-based adjustment rate `r^{(l_k)}(T2,T1)`. -/
theorem dp_eq_cutback_mul_leaf_rate (t1 t2 : PTree) (lk a : String)
    (hlk : lk ∈ t1.leaves) (ha : a ∈ t1.leaves) (hne : lk ≠ a) :
    dpDist t1 t2 lk a = cutback t1 lk a * leafRate t2 t1 (commonLeaves t1 t2) lk := by
  obtain ⟨d, b, hd, hb, hdp⟩ := PTree.distPar_eq t1 lk a hlk ha hne
  simp [dpDist, cutback, dq, termBrQ, hd, hb, hdp]

/-- Witness for C7 on the concrete tree `exT1` with `l_k = A`, `a = C`. -/
theorem dp_eq_cutback_mul_leaf_rate_witness :
    dpDist exT1 exT2 "A" "C"
      = cutback exT1 "A" "C" * leafRate exT2 exT1 (commonLeaves exT1 exT2) "A" :=
  dp_eq_cutback_mul_leaf_rate exT1 exT2 "A" "C" (by decide) (by decide) (by decide)

/-- C8: transferring an element of `SD(T1)` into `T2`'s frame multiplies its
root/terminal branch length by `r(T2,T1)`, and every branch inside the
transferred subtree is rescaled uniformly by that same rate (symmetrically
with `r(T1,T2)` for elements of `SD(T2)`). -/
theorem transfer_rescales_all_branches (t1 t2 : PTree) (a : PTree) :
    (PTree.rescale (adjRate t2 t1) a).br = a.br * adjRate t2 t1
    ∧ (PTree.rescale (adjRate t2 t1) a).branches
        = a.branches.map (fun b => b * adjRate t2 t1)
    ∧ (PTree.rescale (adjRate t1 t2) a).br = a.br * adjRate t1 t2
    ∧ (PTree.rescale (adjRate t1 t2) a).branches
        = a.branches.map (fun b => b * adjRate t1 t2) := by
  refine ⟨?_, ?_, ?_, ?_⟩
  · rw [PTree.br_rescale, mul_comm]
  · rw [PTree.branches_rescale]
    simp [mul_comm]
  · rw [PTree.br_rescale, mul_comm]
  · rw [PTree.branches_rescale]
    simp [mul_comm]

/-- Counterexample to C9: on the concrete pair `exT1`, `exT2`, whose leaf
sets overlap but are not equal, the BSD script does not fail: it prunes to
the common leaves and returns the BSD(-) distance value. -/
theorem different_leaf_sets_return_bsd_minus_cex :
    exT1.leaves.toFinset ≠ exT2.leaves.toFinset
    ∧ bsdScenario exT1 exT2 = BsdOutcome.bsdMinus (bsdMinusSq exT1 exT2) := by
  have h1 : exT1.leaves.toFinset ≠ exT2.leaves.toFinset := by decide
  have h2 : commonLeaves exT1 exT2 ≠ [] := by decide
  exact ⟨h1, by simp [bsdScenario, h1, h2]⟩

/-- C9 as amended: the BSD script returns the plain BSD value only when the
two leaf sets are identical; with overlapping but different leaf sets it
returns the BSD(-) value of the trees pruned to their common leaves, and
with disjoint leaf sets it reports that the distance cannot be computed —
it never fails with a `LeafSetMismatch` error. -/
theorem bsd_scenarios_amended (t1 t2 : PTree)
    (hne : t1.leaves.toFinset ≠ t2.leaves.toFinset) :
    (∀ v : ℚ, bsdScenario t1 t2 ≠ BsdOutcome.bsd v)
    ∧ (commonLeaves t1 t2 ≠ [] →
        bsdScenario t1 t2 = BsdOutcome.bsdMinus (bsdMinusSq t1 t2))
    ∧ (commonLeaves t1 t2 = [] → bsdScenario t1 t2 = BsdOutcome.noCommon) := by
  refine ⟨?_, ?_, ?_⟩
  · intro v
    by_cases h : commonLeaves t1 t2 = [] <;> simp [bsdScenario, hne, h]
  · intro h
    simp [bsdScenario, hne, h]
  · intro h
    simp [bsdScenario, hne, h]

/-- Witness for the amended C9 on the concrete pair `exT1`, `exT2`. -/
theorem bsd_scenarios_amended_witness :
    (∀ v : ℚ, bsdScenario exT1 exT2 ≠ BsdOutcome.bsd v)
    ∧ (commonLeaves exT1 exT2 ≠ [] →
        bsdScenario exT1 exT2 = BsdOutcome.bsdMinus (bsdMinusSq exT1 exT2))
    ∧ (commonLeaves exT1 exT2 = [] → bsdScenario exT1 exT2 = BsdOutcome.noCommon) :=
  bsd_scenarios_amended exT1 exT2 (by decide)

/-- C10: the reported success rate of the supertree-validation cell equals
`100·n/N` where `N` is the raw number of lines of the method file (blank and
unparsable lines included) and `n` counts the lines that parse as a Newick
tree and whose index has a successfully loaded, non-empty input tree set;
and when `n = 0` the reported average taxa and average RF distance are both
`0` instead of an error. -/
theorem notebook_stats_correct (inputSets : List Bool) (lns : List SupLine)
    (hb : ∀ ln ∈ lns, ln.blank = true → ln.parsed = none) :
    successRate inputSets lns
      = 100 * ((lns.enum.countP fun p => p.2.parsed.isSome && (inputSets[p.1]?).getD false : ℕ) : ℚ)
        / lns.length
    ∧ ((lns.enum.countP fun p => p.2.parsed.isSome && (inputSets[p.1]?).getD false) = 0 →
        avgTaxa inputSets lns = 0 ∧ avgRf inputSets lns = 0) := by
  obtain ⟨h1, h2, h3⟩ := processFrom_stats inputSets lns 0 ⟨0, [], []⟩ hb
  have henum : lns.enum = List.enumFrom 0 lns := rfl
  refine ⟨?_, ?_⟩
  · simp only [successRate, analyzeMethod, h1, henum]
    norm_num
  · intro hz
    rw [henum] at hz
    rw [hz] at h2 h3
    simp only [List.length_nil, Nat.add_zero, Nat.le_zero] at h2 h3
    have ht : (processFrom inputSets 0 lns ⟨0, [], []⟩).taxonCounts = [] :=
      List.length_eq_zero.1 h2
    have hr : (processFrom inputSets 0 lns ⟨0, [], []⟩).rfDistances = [] :=
      List.length_eq_zero.1 h3
    constructor
    · simp [avgTaxa, analyzeMethod, ht]
    · simp [avgRf, analyzeMethod, hr]

/-- Concrete two-line method file for the C10 witness: one blank line and
one line that fails to parse. -/
def exLines : List SupLine := [⟨true, none, none⟩, ⟨false, none, some 3⟩]

/-- Witness for C10 on the concrete file `exLines` with both input sets
loaded: no line succeeds, the rate formula holds and both averages are 0. -/
theorem notebook_stats_correct_witness :
    successRate [true, true] exLines
      = 100 * ((exLines.enum.countP fun p =>
          p.2.parsed.isSome && (([true, true])[p.1]?).getD false : ℕ) : ℚ) / exLines.length
    ∧ ((exLines.enum.countP fun p =>
          p.2.parsed.isSome && (([true, true])[p.1]?).getD false) = 0 →
        avgTaxa [true, true] exLines = 0 ∧ avgRf [true, true] exLines = 0) :=
  notebook_stats_correct [true, true] exLines (by decide)
